import Mathlib

/-!
Verification of the CineMatch recommendation core (`src/app.py`).

The embedding models the catalog as a list of rows (title plus optional
external id; a missing value stands for pandas `NaN`), the similarity
matrix as a list of rows of rational scores (an exact stand-in for the
float scores: every claim here is order-theoretic, not about rounding),
and Python's `sorted(..., key=lambda x: x[1], reverse=True)` as a stable
descending insertion sort.  Exceptions that the Python code can raise
outside its `try` block are modelled with `Except`.
-/

namespace CineMatch

/-- One row of the `movies` DataFrame: the `title` column and the value of
the optional `id` column (`none` models a missing/NaN value). -/
structure MovieRow where
  title : String
  idVal : Option Int
deriving Repr, DecidableEq

/-- Similarity scores, modelled exactly as rationals. -/
abbrev Score := Rat

/-- A 2-D array: a list of rows. -/
abbrev Matrix := List (List Score)

/-- `movies[movies['title'] == movie_name].index[0]` with the default
RangeIndex: the first (lowest) position whose title is exactly equal to
the query, `none` when no row matches. -/
def find_by_title : List MovieRow → String → Option Nat
  | [], _ => none
  | r :: rs, name =>
    if r.title = name then some 0 else (find_by_title rs name).map (· + 1)

/-- `mid = mrow['id'] if 'id' in movies.columns else -1` followed by
`int(mid) if not pd.isna(mid) else -1` (lines 127-128 of `app.py`). -/
def movieExtId (hasIdCol : Bool) (idVal : Option Int) : Int :=
  if hasIdCol then
    match idVal with
    | some v => v
    | none => -1
  else -1

/-- One insertion step of the stable descending sort: `x` is placed in
front of the first element whose score is at most `x`'s score.  This is
the observable behaviour of Python's stable `sorted` with `reverse=True`:
an element keeps its place relative to equal-scored elements. -/
def insertDesc (x : Nat × Score) : List (Nat × Score) → List (Nat × Score)
  | [] => [x]
  | y :: ys => if y.2 ≤ x.2 then x :: y :: ys else y :: insertDesc x ys

/-- Stable descending sort by score, modelling
`sorted(S, key=lambda x: x[1], reverse=True)` on `S = list(enumerate(distances))`. -/
def sortDesc : List (Nat × Score) → List (Nat × Score)
  | [] => []
  | x :: xs => insertDesc x (sortDesc xs)

/-- Concrete four-movie catalog used to witness the theorems, mirroring the
specification's worked example (`["A","B","C","D"]`, the movie "C" having
no external id). -/
def mvEx : List MovieRow :=
  [⟨"A", some 10⟩, ⟨"B", some 20⟩, ⟨"C", none⟩, ⟨"D", some 40⟩]

/-- Concrete 4×4 similarity matrix used to witness the theorems; its first
row is the specification's worked example `[1.0, 0.9, 0.95, 0.2]` scaled
by 20 (kept integer-valued so that witnesses evaluate by `decide`; all
claims are order-theoretic, so the scaling is immaterial). -/
def simEx : Matrix :=
  [[20, 18, 19, 4],
   [18, 20, 0, 0],
   [19, 0, 20, 0],
   [4, 0, 0, 20]]

/-- The order that the stable descending sort realises on the enumerated
candidates: `a` comes before `b` when `a`'s score is strictly larger, or
the scores are equal and `a`'s catalog position is lower. -/
def keyLt (a b : Nat × Score) : Prop :=
  b.2 < a.2 ∨ (a.2 = b.2 ∧ a.1 < b.1)

/-- Errors the recommendation path can raise outside its `try` block
(`IndexError` from `similarity[idx]` or `movies.iloc[i]`). -/
inductive RecError where
  | indexOutOfRange
deriving Repr, DecidableEq

/-- Body of the result loop for one surviving `(position, score)` pair:
`mrow = movies.iloc[i]` (raising when `i` is out of range) and the
`(title, score, external_id)` tuple built from it. -/
def entryOf (movies : List MovieRow) (hasIdCol : Bool) (p : Nat × Score) :
    Except RecError (String × Score × Int) :=
  match movies.get? p.1 with
  | some mrow => .ok (mrow.title, p.2, movieExtId hasIdCol mrow.idVal)
  | none => .error .indexOutOfRange

/-- The same tuple, as a pure function, used to state what `recommend`
returns when every position is in range. -/
def entryPure (movies : List MovieRow) (hasIdCol : Bool) (p : Nat × Score) :
    String × Score × Int :=
  let mrow := movies.getD p.1 ⟨"", none⟩
  (mrow.title, p.2, movieExtId hasIdCol mrow.idVal)

/-- `recommend_movie` (lines 114-129 of `app.py`): resolve the title
(returning `[]` when the lookup raises), fetch the similarity row,
enumerate it, sort stably by score descending, slice `[1 : top_n + 1]`,
and map each survivor to a `(title, score, external_id)` tuple. -/
def recommend_movie (movies : List MovieRow) (hasIdCol : Bool)
    (similarity : Matrix) (movie_name : String) (top_n : Nat) :
    Except RecError (List (String × Score × Int)) :=
  match find_by_title movies movie_name with
  | none => .ok []
  | some idx =>
    match similarity.get? idx with
    | none => .error .indexOutOfRange
    | some distances =>
      (((sortDesc distances.enum).drop 1).take top_n).mapM
        (entryOf movies hasIdCol)

/-- Errors the similarity load can raise: `np.concatenate` raises a
`ValueError` when the chunks' column counts differ.  `shapeMismatch` is
the error the specification describes; the source contains no code that
produces it. -/
inductive LoadError where
  | valueError
  | shapeMismatch
deriving Repr, DecidableEq

/-- Column count of a 2-D array (every row of an ndarray has the same
length, so the first row's length is the column count). -/
def chunkCols (m : Matrix) : Nat := (m.headD []).length

/-- The similarity assembly of `load_data` (lines 77-81 of `app.py`):
`np.concatenate((part0, part1, part2), axis=0)`.  The only check is
numpy's own column-count agreement; no squareness or catalog-size
validation is performed. -/
def load_similarity (p0 p1 p2 : Matrix) : Except LoadError Matrix :=
  if chunkCols p0 = chunkCols p1 ∧ chunkCols p1 = chunkCols p2 then
    .ok (p0 ++ p1 ++ p2)
  else .error .valueError

/-- Outcome of the one HTTP request `fetch_poster` may make: a transport
error (any exception from `requests.get`/`.json()`), or a response with a
status code and an optional `poster_path` field. -/
inductive NetResp where
  | err
  | status (code : Nat) (posterPath : Option String)
deriving Repr, DecidableEq

/-- `fetch_poster` (lines 131-145 of `app.py`), with the network's
behaviour passed in as `net`.  Returns the resulting URL string together
with the number of network calls performed. -/
def fetch_poster (tmdb_id : Int) (api_key : String) (net : NetResp) :
    String × Nat :=
  if tmdb_id < 0 ∨ api_key = "" then ("", 0)
  else
    match net with
    | .err => ("", 1)
    | .status code path =>
      if code = 200 then
        match path with
        | some p => if p = "" then ("", 1) else ("https://image.tmdb.org/t/p/w500" ++ p, 1)
        | none => ("", 1)
      else ("", 1)

instance {ε α : Type _} [DecidableEq ε] [DecidableEq α] :
    DecidableEq (Except ε α)
  | .error e, .error f =>
    if h : e = f then .isTrue (by rw [h])
    else .isFalse fun hc => h (by injection hc)
  | .error _, .ok _ => .isFalse fun hc => Except.noConfusion hc
  | .ok _, .error _ => .isFalse fun hc => Except.noConfusion hc
  | .ok a, .ok b =>
    if h : a = b then .isTrue (by rw [h])
    else .isFalse fun hc => h (by injection hc)

/-! ### Lemmas about the stable descending sort -/

theorem mem_insertDesc {a x : Nat × Score} {l : List (Nat × Score)} :
    a ∈ insertDesc x l ↔ a = x ∨ a ∈ l := by
  induction l with
  | nil => simp [insertDesc]
  | cons y ys ih =>
    simp only [insertDesc]
    split
    · simp
    · simp only [List.mem_cons, ih]
      tauto

theorem insertDesc_perm (x : Nat × Score) (l : List (Nat × Score)) :
    List.Perm (insertDesc x l) (x :: l) := by
  induction l with
  | nil => simp [insertDesc]
  | cons y ys ih =>
    simp only [insertDesc]
    split
    · exact List.Perm.refl _
    · exact (ih.cons y).trans (List.Perm.swap x y ys)

theorem sortDesc_perm (l : List (Nat × Score)) : List.Perm (sortDesc l) l := by
  induction l with
  | nil => exact List.Perm.refl _
  | cons x xs ih =>
    exact (insertDesc_perm x (sortDesc xs)).trans (ih.cons x)

theorem length_sortDesc (l : List (Nat × Score)) :
    (sortDesc l).length = l.length :=
  (sortDesc_perm l).length_eq

theorem keyLt_irrefl (a : Nat × Score) : ¬ keyLt a a := by
  simp [keyLt]

theorem keyLt_trans {a b c : Nat × Score} (hab : keyLt a b) (hbc : keyLt b c) :
    keyLt a c := by
  rcases hab with h1 | ⟨h1, h1'⟩ <;> rcases hbc with h2 | ⟨h2, h2'⟩
  · exact Or.inl (h2.trans h1)
  · exact Or.inl (lt_of_eq_of_lt h2.symm h1)
  · exact Or.inl (lt_of_lt_of_eq h2 h1.symm)
  · exact Or.inr ⟨h1.trans h2, h1'.trans h2'⟩

theorem pairwise_insertDesc {x : Nat × Score} {l : List (Nat × Score)}
    (hl : l.Pairwise keyLt) (hx : ∀ y ∈ l, x.2 = y.2 → x.1 < y.1) :
    (insertDesc x l).Pairwise keyLt := by
  induction l with
  | nil => simp [insertDesc]
  | cons y ys ih =>
    rcases List.pairwise_cons.mp hl with ⟨hy, hys⟩
    simp only [insertDesc]
    split
    · rename_i hle
      refine List.pairwise_cons.mpr ⟨?_, hl⟩
      intro z hz
      have hxy : keyLt x y := by
        rcases lt_or_eq_of_le hle with h | h
        · exact Or.inl h
        · exact Or.inr ⟨h.symm, hx y (List.mem_cons_self y ys) h.symm⟩
      rcases List.mem_cons.mp hz with rfl | hz
      · exact hxy
      · exact keyLt_trans hxy (hy z hz)
    · rename_i hgt
      have hxlt : x.2 < y.2 := lt_of_not_le hgt
      refine List.pairwise_cons.mpr ⟨?_, ih hys ?_⟩
      · intro z hz
        rcases mem_insertDesc.mp hz with rfl | hz
        · exact Or.inl hxlt
        · exact hy z hz
      · intro z hz hz'
        exact hx z (List.mem_cons_of_mem y hz) hz'

theorem pairwise_sortDesc {l : List (Nat × Score)}
    (h : l.Pairwise fun a b => a.1 < b.1) :
    (sortDesc l).Pairwise keyLt := by
  induction l with
  | nil => simp [sortDesc]
  | cons x xs ih =>
    rcases List.pairwise_cons.mp h with ⟨hx, hxs⟩
    refine pairwise_insertDesc (ih hxs) ?_
    intro y hy _
    exact hx y ((sortDesc_perm xs).mem_iff.mp hy)

/-! ### Lemmas about `List.enum` -/

theorem le_fst_of_mem_enumFrom {p : Nat × Score} :
    ∀ {n : Nat} {l : List Score}, p ∈ List.enumFrom n l → n ≤ p.1 := by
  intro n l
  induction l generalizing n with
  | nil => intro h; simp [List.enumFrom] at h
  | cons x xs ih =>
    intro h
    rcases List.mem_cons.mp h with rfl | h
    · exact Nat.le_refl _
    · exact Nat.le_of_succ_le (ih h)

theorem fst_lt_of_mem_enumFrom {p : Nat × Score} :
    ∀ {n : Nat} {l : List Score}, p ∈ List.enumFrom n l → p.1 < n + l.length := by
  intro n l
  induction l generalizing n with
  | nil => intro h; simp [List.enumFrom] at h
  | cons x xs ih =>
    intro h
    rcases List.mem_cons.mp h with rfl | h
    · simp only [List.length_cons]
      omega
    · have := ih h
      simp only [List.length_cons]
      omega

theorem pairwise_fst_lt_enumFrom (n : Nat) (l : List Score) :
    (List.enumFrom n l).Pairwise fun a b => a.1 < b.1 := by
  induction l generalizing n with
  | nil => simp [List.enumFrom]
  | cons x xs ih =>
    refine List.pairwise_cons.mpr ⟨?_, ih (n + 1)⟩
    intro p hp
    exact Nat.lt_of_succ_le (le_fst_of_mem_enumFrom hp)

theorem pairwise_fst_lt_enum (l : List Score) :
    (l.enum).Pairwise fun a b => a.1 < b.1 :=
  pairwise_fst_lt_enumFrom 0 l

theorem fst_lt_length_of_mem_enum {p : Nat × Score} {l : List Score}
    (h : p ∈ l.enum) : p.1 < l.length := by
  have := fst_lt_of_mem_enumFrom (n := 0) h
  simpa using this

/-! ### Lemmas about `find_by_title` -/

theorem find_by_title_lt {movies : List MovieRow} {name : String} {i : Nat}
    (h : find_by_title movies name = some i) : i < movies.length := by
  induction movies generalizing i with
  | nil => simp [find_by_title] at h
  | cons r rs ih =>
    simp only [find_by_title] at h
    split at h
    · cases h
      simp
    · rcases Option.map_eq_some'.mp h with ⟨j, hj, rfl⟩
      have := ih hj
      simp only [List.length_cons]
      omega

theorem find_by_title_eq_none_iff {movies : List MovieRow} {name : String} :
    find_by_title movies name = none ↔ ∀ r ∈ movies, r.title ≠ name := by
  induction movies with
  | nil => simp [find_by_title]
  | cons r rs ih =>
    simp only [find_by_title]
    split
    · rename_i ht
      simp [ht]
    · rename_i ht
      simp only [Option.map_eq_none', ih, List.mem_cons]
      constructor
      · rintro h x (rfl | hx)
        · exact ht
        · exact h x hx
      · intro h x hx
        exact h x (Or.inr hx)

theorem find_by_title_eq_some_iff {movies : List MovieRow} {name : String}
    {i : Nat} :
    find_by_title movies name = some i ↔
      i < movies.length ∧ (movies.getD i ⟨"", none⟩).title = name ∧
        ∀ j, j < i → (movies.getD j ⟨"", none⟩).title ≠ name := by
  induction movies generalizing i with
  | nil => simp [find_by_title]
  | cons r rs ih =>
    simp only [find_by_title]
    split
    · rename_i ht
      constructor
      · rintro h
        cases h
        exact ⟨by simp, by simpa using ht, by omega⟩
      · rintro ⟨hi, hget, hmin⟩
        rcases i with _ | i
        · rfl
        · exact absurd (by simpa using hmin 0 (Nat.succ_pos i)) (not_not.mpr ht)
    · rename_i ht
      rcases i with _ | i
      · simp only [List.getD_cons_zero]
        constructor
        · intro h
          rcases Option.map_eq_some'.mp h with ⟨j, _, hj⟩
          simp at hj
        · rintro ⟨_, hget, _⟩
          exact absurd hget ht
      · rw [show (some (i + 1)) = Option.map (· + 1) (some i) by rfl]
        constructor
        · intro h
          rcases Option.map_eq_some'.mp h with ⟨j, hj, hji⟩
          simp only [] at hji
          have hji' : j = i := by omega
          subst hji'
          rcases ih.mp hj with ⟨hi, hget, hmin⟩
          refine ⟨by simpa using Nat.succ_lt_succ hi, by simpa using hget, ?_⟩
          intro j hj'
          rcases j with _ | j
          · simpa using ht
          · simpa using hmin j (by omega)
        · rintro ⟨hi, hget, hmin⟩
          have hj : find_by_title rs name = some i := by
            refine ih.mpr ⟨by simpa using hi, by simpa using hget, ?_⟩
            intro j hj'
            simpa using hmin (j + 1) (by omega)
          simp [hj]

/-! ### The successful path of `recommend_movie` -/

theorem entryOf_eq_ok {movies : List MovieRow} {hasIdCol : Bool}
    {p : Nat × Score} (h : p.1 < movies.length) :
    entryOf movies hasIdCol p = .ok (entryPure movies hasIdCol p) := by
  rcases hg : movies[p.1]? with _ | mrow
  · have := List.getElem?_eq_none_iff.mp hg
    omega
  · simp [entryOf, entryPure, List.get?_eq_getElem?, hg, List.getD]

theorem mapM_entryOf_ok {movies : List MovieRow} {hasIdCol : Bool} :
    ∀ {L : List (Nat × Score)}, (∀ p ∈ L, p.1 < movies.length) →
      L.mapM (entryOf movies hasIdCol) =
        .ok (L.map (entryPure movies hasIdCol)) := by
  intro L
  induction L with
  | nil => intro _; rfl
  | cons p ps ih =>
    intro h
    rw [List.mapM_cons, entryOf_eq_ok (h p (List.mem_cons_self p ps)),
      ih fun q hq => h q (List.mem_cons_of_mem p hq)]
    rfl

theorem recommend_found {movies : List MovieRow} {hasIdCol : Bool}
    {similarity : Matrix} {name : String} {top_n : Nat} {idx : Nat}
    (hsq : similarity.length = movies.length)
    (hrows : ∀ r ∈ similarity, r.length = movies.length)
    (hfind : find_by_title movies name = some idx) :
    ∃ distances, similarity.get? idx = some distances ∧
      distances.length = movies.length ∧
      recommend_movie movies hasIdCol similarity name top_n =
        .ok ((((sortDesc distances.enum).drop 1).take top_n).map
          (entryPure movies hasIdCol)) := by
  have hidx : idx < similarity.length := hsq ▸ find_by_title_lt hfind
  rcases hg : similarity.get? idx with _ | distances
  · exact absurd (List.get?_eq_none.mp hg) (by omega)
  · have hmem : distances ∈ similarity := List.get?_mem hg
    have hlen : distances.length = movies.length := hrows distances hmem
    refine ⟨distances, rfl, hlen, ?_⟩
    have hbound : ∀ p ∈ ((sortDesc distances.enum).drop 1).take top_n,
        p.1 < movies.length := by
      intro p hp
      have hp1 : p ∈ (sortDesc distances.enum).drop 1 := List.mem_of_mem_take hp
      have hp2 : p ∈ sortDesc distances.enum := List.mem_of_mem_drop hp1
      have hp3 : p ∈ distances.enum := (sortDesc_perm _).mem_iff.mp hp2
      have := fst_lt_length_of_mem_enum hp3
      omega
    simp only [recommend_movie, hfind, hg]
    exact mapM_entryOf_ok hbound

theorem ne_head_of_mem_drop_take {l : List (Nat × Score)} {n : Nat}
    (h : l.Pairwise keyLt) :
    ∀ p ∈ (l.drop 1).take n, ∀ q ∈ l.take 1, p ≠ q := by
  cases l with
  | nil => intro p _ q hq; simp at hq
  | cons q' rest =>
    intro p hp q hq
    have hq' : q = q' := by simpa using hq
    subst hq'
    have hp' : p ∈ rest := List.mem_of_mem_take (by simpa using hp)
    have hrel := (List.pairwise_cons.mp h).1 p hp'
    intro heq
    exact keyLt_irrefl p (heq ▸ hrel)

/-! ### Claim theorems -/

/-- C1: for a title present in the catalog and `top_n ≥ 1`, under the
load-time shape invariant, `recommend` returns exactly the entries at
ranks 1 through `top_n` of the score-sorted candidate sequence; the
rank-0 entry is dropped by positional offset and never appears among the
selected candidates, and the output length is at most `top_n` and at most
`N - 1` for a catalog of size `N`. -/
theorem recommend_slice_spec (movies : List MovieRow) (hasIdCol : Bool)
    (similarity : Matrix) (name : String) (top_n : Nat) (idx : Nat)
    (hsq : similarity.length = movies.length)
    (hrows : ∀ r ∈ similarity, r.length = movies.length)
    (_htop : 1 ≤ top_n)
    (hfind : find_by_title movies name = some idx) :
    ∃ distances, similarity.get? idx = some distances ∧
      recommend_movie movies hasIdCol similarity name top_n =
        .ok ((((sortDesc distances.enum).drop 1).take top_n).map
          (entryPure movies hasIdCol)) ∧
      (∀ p ∈ ((sortDesc distances.enum).drop 1).take top_n,
        ∀ q ∈ (sortDesc distances.enum).take 1, p ≠ q) ∧
      ((((sortDesc distances.enum).drop 1).take top_n).map
        (entryPure movies hasIdCol)).length ≤ top_n ∧
      ((((sortDesc distances.enum).drop 1).take top_n).map
        (entryPure movies hasIdCol)).length ≤ movies.length - 1 := by
  obtain ⟨distances, hg, hlen, hrec⟩ :=
    @recommend_found movies hasIdCol similarity name top_n idx hsq hrows hfind
  refine ⟨distances, hg, hrec, ?_, ?_, ?_⟩
  · exact ne_head_of_mem_drop_take (pairwise_sortDesc (pairwise_fst_lt_enum _))
  · rw [List.length_map, List.length_take]
    exact min_le_left _ _
  · rw [List.length_map, List.length_take]
    refine le_trans (min_le_right _ _) ?_
    rw [List.length_drop, length_sortDesc, List.enum_length, hlen]

/-- C1 witness: the spec's worked example, catalog `["A","B","C","D"]` and
first similarity row `[1.0, 0.9, 0.95, 0.2]`, with `top_n = 2`. -/
theorem recommend_slice_spec_witness :
    ∃ distances, simEx.get? 0 = some distances ∧
      recommend_movie mvEx true simEx "A" 2 =
        .ok ((((sortDesc distances.enum).drop 1).take 2).map
          (entryPure mvEx true)) ∧
      (∀ p ∈ ((sortDesc distances.enum).drop 1).take 2,
        ∀ q ∈ (sortDesc distances.enum).take 1, p ≠ q) ∧
      ((((sortDesc distances.enum).drop 1).take 2).map
        (entryPure mvEx true)).length ≤ 2 ∧
      ((((sortDesc distances.enum).drop 1).take 2).map
        (entryPure mvEx true)).length ≤ mvEx.length - 1 :=
  recommend_slice_spec mvEx true simEx "A" 2 0 (by decide) (by decide)
    (by decide) (by decide)

/-- C2: for a title present in the catalog, under the load-time shape
invariant, the selected candidate slice is pairwise ordered by strictly
descending score with equal scores broken by lower catalog position, and
the output's score column is exactly the slice's score column (so the
output is sorted by score descending with the stable tie-break). -/
theorem recommend_sorted_stable (movies : List MovieRow) (hasIdCol : Bool)
    (similarity : Matrix) (name : String) (top_n : Nat) (idx : Nat)
    (hsq : similarity.length = movies.length)
    (hrows : ∀ r ∈ similarity, r.length = movies.length)
    (_htop : 1 ≤ top_n)
    (hfind : find_by_title movies name = some idx) :
    ∃ distances, similarity.get? idx = some distances ∧
      recommend_movie movies hasIdCol similarity name top_n =
        .ok ((((sortDesc distances.enum).drop 1).take top_n).map
          (entryPure movies hasIdCol)) ∧
      (((sortDesc distances.enum).drop 1).take top_n).Pairwise keyLt ∧
      ((((sortDesc distances.enum).drop 1).take top_n).map
          (entryPure movies hasIdCol)).map (fun e => e.2.1) =
        (((sortDesc distances.enum).drop 1).take top_n).map (·.2) := by
  obtain ⟨distances, hg, hlen, hrec⟩ :=
    @recommend_found movies hasIdCol similarity name top_n idx hsq hrows hfind
  refine ⟨distances, hg, hrec, ?_, ?_⟩
  · have hsorted : (sortDesc distances.enum).Pairwise keyLt :=
      pairwise_sortDesc (pairwise_fst_lt_enum _)
    have hsub : List.Sublist (((sortDesc distances.enum).drop 1).take top_n)
        (sortDesc distances.enum) :=
      (List.take_sublist _ _).trans (List.drop_sublist _ _)
    exact hsorted.sublist hsub
  · rw [List.map_map]
    exact List.map_congr_left fun p _ => rfl

/-- C2 witness: the worked example with a tie (`simEx` row 1 gives score 0
to positions 2 and 3, which appear in position order). -/
theorem recommend_sorted_stable_witness :
    ∃ distances, simEx.get? 1 = some distances ∧
      recommend_movie mvEx true simEx "B" 3 =
        .ok ((((sortDesc distances.enum).drop 1).take 3).map
          (entryPure mvEx true)) ∧
      (((sortDesc distances.enum).drop 1).take 3).Pairwise keyLt ∧
      ((((sortDesc distances.enum).drop 1).take 3).map
          (entryPure mvEx true)).map (fun e => e.2.1) =
        (((sortDesc distances.enum).drop 1).take 3).map (·.2) :=
  recommend_sorted_stable mvEx true simEx "B" 3 1 (by decide) (by decide)
    (by decide) (by decide)

/-- C4: for a title that matches no catalog entry, `recommend` returns the
empty result (and no error), for every `top_n`. -/
theorem recommend_unknown_title (movies : List MovieRow) (hasIdCol : Bool)
    (similarity : Matrix) (name : String) (top_n : Nat)
    (h : ∀ r ∈ movies, r.title ≠ name) :
    recommend_movie movies hasIdCol similarity name top_n = .ok [] := by
  simp [recommend_movie, find_by_title_eq_none_iff.mpr h]

/-- C4 witness: the spec's example `recommend("Z", top_n = 5)` yields `[]`. -/
theorem recommend_unknown_title_witness :
    recommend_movie mvEx true simEx "Z" 5 = .ok [] :=
  recommend_unknown_title mvEx true simEx "Z" 5 (by decide)

/-- C6: title lookup resolves by exact string equality and returns the
first match: it yields position `i` exactly when `i` is in range, the
title at `i` equals the query, and no lower position's title does. -/
theorem find_by_title_first_exact (movies : List MovieRow) (name : String)
    (i : Nat) :
    find_by_title movies name = some i ↔
      i < movies.length ∧ (movies.getD i ⟨"", none⟩).title = name ∧
        ∀ j, j < i → (movies.getD j ⟨"", none⟩).title ≠ name :=
  find_by_title_eq_some_iff

/-- C6 witness: on a catalog with a duplicated title, lookup resolves to
the lowest matching position. -/
theorem find_by_title_first_exact_witness :
    find_by_title [⟨"A", some 1⟩, ⟨"B", some 2⟩, ⟨"A", some 3⟩] "A" =
      some 0 :=
  (find_by_title_first_exact [⟨"A", some 1⟩, ⟨"B", some 2⟩, ⟨"A", some 3⟩]
    "A" 0).mpr (by decide)

/-- C8: under the load-time shape invariant, every valid position has a
similarity row of length exactly `N`, the position resolved by title
lookup lies in `0..N-1`, and `recommend`'s row access is in bounds: the
out-of-range error branch is unreachable (`recommend` returns `ok`). -/
theorem recommend_row_access_safe (movies : List MovieRow) (hasIdCol : Bool)
    (similarity : Matrix) (name : String) (top_n : Nat) (idx : Nat)
    (hsq : similarity.length = movies.length)
    (hrows : ∀ r ∈ similarity, r.length = movies.length)
    (hfind : find_by_title movies name = some idx) :
    (∀ p, p < movies.length →
      ∃ r, similarity.get? p = some r ∧ r.length = movies.length) ∧
    idx < movies.length ∧
    ∃ out, recommend_movie movies hasIdCol similarity name top_n =
      .ok out := by
  refine ⟨?_, find_by_title_lt hfind, ?_⟩
  · intro p hp
    rcases hg : similarity.get? p with _ | r
    · have := List.get?_eq_none.mp hg
      omega
    · exact ⟨r, rfl, hrows r (List.get?_mem hg)⟩
  · obtain ⟨d, _, _, hrec⟩ :=
      @recommend_found movies hasIdCol similarity name top_n idx hsq hrows hfind
    exact ⟨_, hrec⟩

/-- C8 witness: the worked example at title "D". -/
theorem recommend_row_access_safe_witness :
    ((∀ p, p < mvEx.length →
      ∃ r, simEx.get? p = some r ∧ r.length = mvEx.length) ∧
    3 < mvEx.length ∧
    ∃ out, recommend_movie mvEx true simEx "D" 6 = .ok out) :=
  recommend_row_access_safe mvEx true simEx "D" 6 3 (by decide) (by decide)
    (by decide)

/-- C9: the engine does not validate `top_n ≥ 1`: for a title present in
the catalog, under the load-time shape invariant, `recommend(title, 0)`
returns the empty list (the `[1:1]` slice of the sorted candidates)
rather than an error or any entries. -/
theorem recommend_topn_zero (movies : List MovieRow) (hasIdCol : Bool)
    (similarity : Matrix) (name : String) (idx : Nat)
    (hsq : similarity.length = movies.length)
    (hrows : ∀ r ∈ similarity, r.length = movies.length)
    (hfind : find_by_title movies name = some idx) :
    recommend_movie movies hasIdCol similarity name 0 = .ok [] := by
  obtain ⟨d, _, _, hrec⟩ :=
    @recommend_found movies hasIdCol similarity name 0 idx hsq hrows hfind
  simpa using hrec

/-- C9 witness: the worked example at title "A" with `top_n = 0`. -/
theorem recommend_topn_zero_witness :
    recommend_movie mvEx true simEx "A" 0 = .ok [] :=
  recommend_topn_zero mvEx true simEx "A" 0 (by decide) (by decide)
    (by decide)

/-- C10: every result tuple's `external_id` comes from the selected
movie's catalog row: it is the sentinel `-1` when the catalog has no `id`
column or the row's id value is missing, and otherwise it is that row's
id value. -/
theorem recommend_extId_rule (movies : List MovieRow) (hasIdCol : Bool)
    (similarity : Matrix) (name : String) (top_n : Nat) (idx : Nat)
    (out : List (String × Score × Int))
    (hsq : similarity.length = movies.length)
    (hrows : ∀ r ∈ similarity, r.length = movies.length)
    (hfind : find_by_title movies name = some idx)
    (hout : recommend_movie movies hasIdCol similarity name top_n =
      .ok out) :
    ∀ e ∈ out, ∃ mrow, mrow ∈ movies ∧
      e.1 = mrow.title ∧
      e.2.2 = movieExtId hasIdCol mrow.idVal ∧
      (hasIdCol = false → e.2.2 = -1) ∧
      (mrow.idVal = none → e.2.2 = -1) ∧
      (∀ v : Int, hasIdCol = true → mrow.idVal = some v → e.2.2 = v) := by
  obtain ⟨distances, hg, hlen, hrec⟩ :=
    @recommend_found movies hasIdCol similarity name top_n idx hsq hrows hfind
  rw [hrec] at hout
  have hout' : (((sortDesc distances.enum).drop 1).take top_n).map
      (entryPure movies hasIdCol) = out := by
    injection hout
  intro e he
  rw [← hout'] at he
  rcases List.mem_map.mp he with ⟨p, hp, rfl⟩
  have hp3 : p ∈ distances.enum :=
    (sortDesc_perm _).mem_iff.mp
      (List.mem_of_mem_drop (List.mem_of_mem_take hp))
  have hplt : p.1 < movies.length := hlen ▸ fst_lt_length_of_mem_enum hp3
  rcases hm : movies[p.1]? with _ | mrow
  · have := List.getElem?_eq_none_iff.mp hm
    omega
  · have hm' : movies.get? p.1 = some mrow := by
      rw [List.get?_eq_getElem?]
      exact hm
    refine ⟨mrow, List.get?_mem hm', ?_, ?_, ?_, ?_, ?_⟩
    · simp [entryPure, List.getD_eq_getElem?_getD, hm]
    · simp [entryPure, List.getD_eq_getElem?_getD, hm]
    · intro hcol
      simp [entryPure, List.getD_eq_getElem?_getD, hm, movieExtId, hcol]
    · intro hnone
      cases hasIdCol <;>
        simp [entryPure, List.getD_eq_getElem?_getD, hm, movieExtId, hnone]
    · intro v hcol hv
      simp [entryPure, List.getD_eq_getElem?_getD, hm, movieExtId, hcol, hv]

/-- C10 witness: in the worked example's output at title "A", the entry
for "C" (whose catalog row has a missing id) carries the sentinel `-1`. -/
theorem recommend_extId_rule_witness :
    ∃ mrow, mrow ∈ mvEx ∧
      (("C", (19 : Score), (-1 : Int)) : String × Score × Int).1 =
        mrow.title ∧
      (("C", (19 : Score), (-1 : Int)) : String × Score × Int).2.2 =
        movieExtId true mrow.idVal ∧
      (true = false →
        (("C", (19 : Score), (-1 : Int)) : String × Score × Int).2.2 = -1) ∧
      (mrow.idVal = none →
        (("C", (19 : Score), (-1 : Int)) : String × Score × Int).2.2 = -1) ∧
      (∀ v : Int, true = true → mrow.idVal = some v →
        (("C", (19 : Score), (-1 : Int)) : String × Score × Int).2.2 = v) :=
  recommend_extId_rule mvEx true simEx "A" 2 0
    [("C", (19 : Score), (-1 : Int)), ("B", (18 : Score), 20)]
    (by decide) (by decide) (by decide) (by decide)
    ("C", (19 : Score), (-1 : Int)) (by decide)

/-- C5: assembling the Similarity Index from 3 chunks of shapes `(a×N)`,
`(b×N)`, `(c×N)` yields an `((a+b+c)×N)` matrix whose row `i` equals the
corresponding row of whichever chunk contains it. -/
theorem load_three_chunks (p0 p1 p2 : Matrix) (N : Nat)
    (h0 : ∀ r ∈ p0, r.length = N) (h1 : ∀ r ∈ p1, r.length = N)
    (h2 : ∀ r ∈ p2, r.length = N)
    (hc : chunkCols p0 = chunkCols p1 ∧ chunkCols p1 = chunkCols p2) :
    ∃ m, load_similarity p0 p1 p2 = .ok m ∧
      m.length = p0.length + p1.length + p2.length ∧
      (∀ r ∈ m, r.length = N) ∧
      (∀ i, i < p0.length → m.get? i = p0.get? i) ∧
      (∀ i, p0.length ≤ i → i < p0.length + p1.length →
        m.get? i = p1.get? (i - p0.length)) ∧
      (∀ i, p0.length + p1.length ≤ i →
        m.get? i = p2.get? (i - p0.length - p1.length)) := by
  refine ⟨p0 ++ p1 ++ p2, by simp [load_similarity, hc.1, hc.2], ?_, ?_,
    ?_, ?_, ?_⟩
  · simp only [List.length_append]
  · intro r hr
    rcases List.mem_append.mp hr with hr' | hr'
    · rcases List.mem_append.mp hr' with h | h
      · exact h0 r h
      · exact h1 r h
    · exact h2 r hr'
  · intro i hi
    have hi' : i < (p0 ++ p1).length := by
      simp only [List.length_append]
      omega
    rw [List.get?_append hi']
    exact List.get?_append hi
  · intro i hlo hhi
    have hi' : i < (p0 ++ p1).length := by
      simp only [List.length_append]
      omega
    rw [List.get?_append hi']
    exact List.get?_append_right hlo
  · intro i hlo
    have hi' : (p0 ++ p1).length ≤ i := by
      simp only [List.length_append]
      omega
    rw [List.get?_append_right hi']
    simp only [List.length_append, Nat.sub_sub]

/-- C5 witness: three 1×2 chunks assemble into the 3×2 matrix whose rows
are the chunks' rows in order. -/
theorem load_three_chunks_witness :
    ∃ m, load_similarity [[(1 : Score), 2]] [[3, 4]] [[5, 6]] = .ok m ∧
      m.length = ([[(1 : Score), 2]] : Matrix).length +
        ([[(3 : Score), 4]] : Matrix).length +
        ([[(5 : Score), 6]] : Matrix).length ∧
      (∀ r ∈ m, r.length = 2) ∧
      (∀ i, i < ([[(1 : Score), 2]] : Matrix).length →
        m.get? i = ([[(1 : Score), 2]] : Matrix).get? i) ∧
      (∀ i, ([[(1 : Score), 2]] : Matrix).length ≤ i →
        i < ([[(1 : Score), 2]] : Matrix).length +
          ([[(3 : Score), 4]] : Matrix).length →
        m.get? i = ([[(3 : Score), 4]] : Matrix).get?
          (i - ([[(1 : Score), 2]] : Matrix).length)) ∧
      (∀ i, ([[(1 : Score), 2]] : Matrix).length +
          ([[(3 : Score), 4]] : Matrix).length ≤ i →
        m.get? i = ([[(5 : Score), 6]] : Matrix).get?
          (i - ([[(1 : Score), 2]] : Matrix).length -
            ([[(3 : Score), 4]] : Matrix).length)) :=
  load_three_chunks [[(1 : Score), 2]] [[3, 4]] [[5, 6]] 2 (by decide)
    (by decide) (by decide) (by decide)

/-- C3 counterexample: three 1×2 chunks with agreeing column counts load
successfully into a 3×2 matrix, although the result is not square (row
count 3 ≠ column count 2, and 3 also differs from a catalog of size 2):
the load raises no `ShapeMismatchError`. -/
theorem load_nonsquare_accepted :
    load_similarity [[(1 : Score), 2]] [[3, 4]] [[5, 6]] =
      .ok [[(1 : Score), 2], [3, 4], [5, 6]] ∧
    ([[(1 : Score), 2], [3, 4], [5, 6]] : Matrix).length = 3 ∧
    chunkCols ([[(1 : Score), 2], [3, 4], [5, 6]] : Matrix) = 2 ∧
    (3 : Nat) ≠ 2 := by
  refine ⟨by decide, by decide, by decide, by decide⟩

/-- C3 (amended): the load performs no squareness or catalog-size
validation and can never produce a `ShapeMismatchError`; whenever the
chunks' column counts agree it returns exactly their concatenation —
`a + b + c` rows, never truncated or padded — regardless of whether that
result is square or matches any catalog size. -/
theorem load_no_shape_validation (p0 p1 p2 : Matrix)
    (hc : chunkCols p0 = chunkCols p1 ∧ chunkCols p1 = chunkCols p2) :
    load_similarity p0 p1 p2 = .ok (p0 ++ p1 ++ p2) ∧
    (p0 ++ p1 ++ p2).length = p0.length + p1.length + p2.length ∧
    ∀ q0 q1 q2 : Matrix,
      load_similarity q0 q1 q2 ≠ .error LoadError.shapeMismatch := by
  refine ⟨by simp [load_similarity, hc.1, hc.2],
    by simp only [List.length_append], ?_⟩
  intro q0 q1 q2
  unfold load_similarity
  split
  · intro hcontra
    exact Except.noConfusion hcontra
  · intro hcontra
    have : LoadError.valueError = LoadError.shapeMismatch := by
      injection hcontra
    exact LoadError.noConfusion this

/-- C3 witness: the same non-square instance, through the amended
theorem. -/
theorem load_no_shape_validation_witness :
    load_similarity [[(1 : Score), 2]] [[3, 4]] [[5, 6]] =
      .ok ([[(1 : Score), 2]] ++ [[3, 4]] ++ [[5, 6]]) ∧
    (([[(1 : Score), 2]] : Matrix) ++ [[3, 4]] ++ [[5, 6]]).length =
      ([[(1 : Score), 2]] : Matrix).length +
        ([[(3 : Score), 4]] : Matrix).length +
        ([[(5 : Score), 6]] : Matrix).length ∧
    ∀ q0 q1 q2 : Matrix,
      load_similarity q0 q1 q2 ≠ .error LoadError.shapeMismatch :=
  load_no_shape_validation [[(1 : Score), 2]] [[3, 4]] [[5, 6]] (by decide)

/-- C7: the poster resolver is total (it returns a string, never raising)
and: for the sentinel id `-1` or an empty credential it returns the empty
string with zero network calls; it performs at most one network call; on
a transport error, a non-success status, or a missing image path it
returns the empty string. -/
theorem fetch_poster_spec (tmdb_id : Int) (api_key : String)
    (net : NetResp) :
    ((tmdb_id = -1 ∨ api_key = "") →
      fetch_poster tmdb_id api_key net = ("", 0)) ∧
    (fetch_poster tmdb_id api_key net).2 ≤ 1 ∧
    (net = NetResp.err → (fetch_poster tmdb_id api_key net).1 = "") ∧
    (∀ code path, net = NetResp.status code path → code ≠ 200 →
      (fetch_poster tmdb_id api_key net).1 = "") ∧
    (∀ code, net = NetResp.status code none →
      (fetch_poster tmdb_id api_key net).1 = "") := by
  by_cases hcond : tmdb_id < 0 ∨ api_key = ""
  · rw [show fetch_poster tmdb_id api_key net = ("", 0) by
      simp [fetch_poster, hcond]]
    exact ⟨fun _ => rfl, by decide, fun _ => rfl, fun _ _ _ _ => rfl,
      fun _ _ => rfl⟩
  · refine ⟨?_, ?_, ?_, ?_, ?_⟩
    · intro h
      rcases h with h | h
      · exact absurd (Or.inl (h ▸ (by decide : (-1 : Int) < 0))) hcond
      · exact absurd (Or.inr h) hcond
    · rcases net with _ | ⟨code, path⟩
      · simp [fetch_poster, hcond]
      · rcases path with _ | p
        · simp [fetch_poster, hcond]
        · simp only [fetch_poster, if_neg hcond]
          split
          · split <;> simp
          · simp
    · intro h
      subst h
      simp [fetch_poster, hcond]
    · intro code path h h200
      subst h
      simp only [fetch_poster, if_neg hcond, if_neg h200]
    · intro code h
      subst h
      simp only [fetch_poster, if_neg hcond]
      split <;> rfl

/-- C7 witness: the sentinel, empty-credential, transport-error,
non-success and missing-path cases at concrete inputs. -/
theorem fetch_poster_spec_witness :
    fetch_poster (-1) "key" NetResp.err = ("", 0) ∧
    fetch_poster 5 "" (NetResp.status 200 (some "/x")) = ("", 0) ∧
    (fetch_poster 5 "key" NetResp.err).1 = "" ∧
    (fetch_poster 5 "key" (NetResp.status 404 (some "/x"))).1 = "" ∧
    (fetch_poster 5 "key" (NetResp.status 200 none)).1 = "" :=
  ⟨(fetch_poster_spec (-1) "key" NetResp.err).1 (Or.inl rfl),
   (fetch_poster_spec 5 "" (NetResp.status 200 (some "/x"))).1 (Or.inr rfl),
   (fetch_poster_spec 5 "key" NetResp.err).2.2.1 rfl,
   (fetch_poster_spec 5 "key" (NetResp.status 404 (some "/x"))).2.2.2.1
     404 (some "/x") rfl (by decide),
   (fetch_poster_spec 5 "key" (NetResp.status 200 none)).2.2.2.2 200 rfl⟩

end CineMatch
